import Mathlib

set_option maxRecDepth 8000

/-!
Shallow embedding of `src/bin/calculate_pclmulqdq_artifacts.rs`, the
constant-generation tool for PCLMULQDQ-based CRC-64 computation.
Rust `u64` values are represented as `Nat`, with an explicit reduction
modulo `2 ^ 64` at every operation that wraps in Rust.
-/

/-- One iteration of the loop body of `bit_reverse`:
`reversed <<= 1; reversed |= forward & 1; forward >>= 1`.
`bitRevAux fuel forward reversed` runs the loop `fuel` times. -/
def bitRevAux : Nat → Nat → Nat → Nat
  | 0, _, reversed => reversed
  | k + 1, forward, reversed =>
      bitRevAux k (forward >>> 1) (((reversed <<< 1) % 2 ^ 64) ||| (forward &&& 1))

/-- `bit_reverse` from the source: 64 iterations starting from accumulator 0. -/
def bit_reverse (forward : Nat) : Nat := bitRevAux 64 forward 0

/-- Reversal of the low `k` bits of `f` (specification helper): the low bit
of `f` lands at position `k - 1`. -/
def revLow : Nat → Nat → Nat
  | 0, _ => 0
  | k + 1, f => (f &&& 1) * 2 ^ k + revLow k (f >>> 1)

/-- One iteration of the key loop in `generate_key`, exactly as in the
source: `n = (n << 1) ^ ((0u64.wrapping_sub(n >> 63)) & polynomial)`,
with `wrapping_sub` rendered as subtraction from `2 ^ 64` followed by
reduction modulo `2 ^ 64`. -/
def keyStep (polynomial n : Nat) : Nat :=
  ((n <<< 1) % 2 ^ 64) ^^^ (((2 ^ 64 - (n >>> 63)) % 2 ^ 64) &&& polynomial)

/-- `generate_key` from the source: return 0 for exponents of at most 64,
otherwise run the key loop `exponent - 64` times from `0x8000000000000000`
and bit-reverse the result. -/
def generate_key (exponent polynomial : Nat) : Nat :=
  if exponent ≤ 64 then 0
  else bit_reverse (Nat.iterate (keyStep polynomial) (exponent - 64) 0x8000000000000000)

/-- The spec's branch form of the key-loop step: the mask is all-ones
exactly when the pre-shift top bit (bit 63) of `n` is set, all-zeros
otherwise.  Stated from the spec's words for comparison with `keyStep`. -/
def keyStepBranch (polynomial n : Nat) : Nat :=
  ((n <<< 1) % 2 ^ 64) ^^^ ((if Nat.testBit n 63 then 2 ^ 64 - 1 else 0) &&& polynomial)

/-- One iteration of the division loop in `generate_mu`, exactly as in the
source.  State is `(numerator_high, numerator_low, quotient)`. -/
def muStep (polynomial : Nat) (st : Nat × Nat × Nat) : Nat × Nat × Nat :=
  let q1 := (st.2.2 <<< 1) % 2 ^ 64
  let q2 := if st.1 ≠ 0 then q1 ||| 1 else q1
  let low2 := if st.1 ≠ 0 then st.2.1 ^^^ polynomial else st.2.1
  (low2 >>> 63, (low2 <<< 1) % 2 ^ 64, q2)

/-- `generate_mu` from the source: 64 division steps from
`(high, low, quotient) = (1, 0, 0)`, then bit-reverse the quotient. -/
def generate_mu (polynomial : Nat) : Nat :=
  bit_reverse (Nat.iterate (muStep polynomial) 64 (1, 0, 0)).2.2

/-- The spec's form of the division step, keeping the numerator's high part
as the single bit it is said to be.  Stated from the spec's words for
comparison with `muStep`. -/
def muStepSpec (polynomial : Nat) (st : Bool × Nat × Nat) : Bool × Nat × Nat :=
  let q1 := (st.2.2 <<< 1) % 2 ^ 64
  let q2 := if st.1 then q1 ||| 1 else q1
  let low2 := if st.1 then st.2.1 ^^^ polynomial else st.2.1
  (Nat.testBit low2 63, (low2 <<< 1) % 2 ^ 64, q2)

/-- The quotient after 64 iterations of the spec-side division step. -/
def muSpecQuotient (polynomial : Nat) : Nat :=
  (Nat.iterate (muStepSpec polynomial) 64 (true, 0, 0)).2.2

/-- `generate_reciprocal_polynomial` from the source:
`(bit_reverse(polynomial) << 1) | 1` in `u64` arithmetic. -/
def generate_reciprocal_polynomial (polynomial : Nat) : Nat :=
  ((bit_reverse polynomial <<< 1) % 2 ^ 64) ||| 1

/- ### The CLI surface of `main` -/

/-- Rust `char::to_digit(16)`: decimal digits, then lowercase and uppercase
hex letters. -/
def hexDigitVal (c : Char) : Option Nat :=
  if '0' ≤ c ∧ c ≤ '9' then some (c.toNat - '0'.toNat)
  else if 'a' ≤ c ∧ c ≤ 'f' then some (c.toNat - 'a'.toNat + 10)
  else if 'A' ≤ c ∧ c ≤ 'F' then some (c.toNat - 'A'.toNat + 10)
  else none

/-- The digit-accumulation loop of `u64::from_str_radix` at radix 16: each
digit must be valid and each intermediate value must fit in a `u64`
(Rust's `checked_mul` / `checked_add`), else the parse fails. -/
def parseHexDigits : List Char → Nat → Option Nat
  | [], acc => some acc
  | c :: cs, acc =>
    match hexDigitVal c with
    | none => none
    | some v => if acc * 16 + v < 2 ^ 64 then parseHexDigits cs (acc * 16 + v) else none

/-- `u64::from_str_radix(s, 16)`: empty input fails; a leading `+` must be
followed by at least one digit; a leading `-` on an unsigned target fails;
otherwise the whole string is parsed as digits. -/
def from_str_radix16 (s : List Char) : Option Nat :=
  match s with
  | [] => none
  | c :: rest =>
    if c = '+' then (if rest.isEmpty then none else parseHexDigits rest 0)
    else if c = '-' then none
    else parseHexDigits (c :: rest) 0

/-- Rust `str::trim_start_matches("0x")`: remove every leading occurrence
of the two-character pattern `0x`. -/
def trim_start_matches_0x : List Char → List Char
  | c1 :: c2 :: rest =>
    if c1 = '0' ∧ c2 = 'x' then trim_start_matches_0x rest else c1 :: c2 :: rest
  | s => s

/-- The polynomial-parsing pipeline of `main`:
`u64::from_str_radix(args[1].trim_start_matches("0x"), 16)`. -/
def parse_polynomial (arg : List Char) : Option Nat :=
  from_str_radix16 (trim_start_matches_0x arg)

/-- Lowercase hex digit for a value below 16, as Rust's `{:x}` formatting. -/
def hexDigitChar (n : Nat) : Char :=
  if n < 10 then Char.ofNat ('0'.toNat + n) else Char.ofNat ('a'.toNat + n - 10)

/-- Digits of `n` in base 16, most significant first, empty on 0. -/
def toHexAux : Nat → Nat → List Char
  | 0, _ => []
  | fuel + 1, n => if n = 0 then [] else toHexAux fuel (n / 16) ++ [hexDigitChar (n % 16)]

/-- Rust `format ... {:x}` on a `u64`: unpadded lowercase hex. -/
def toHexStr (n : Nat) : String :=
  if n = 0 then "0" else String.mk (toHexAux 64 n)

/-- The fixed exponent table from the source. -/
def KEY_SIZES : List Nat :=
  [128, 192, 256, 320, 384, 448, 512, 576, 640, 704, 768, 832, 896, 960, 1024, 1088]

/-- The 18 lines `main` prints for a successfully parsed polynomial. -/
def outputLines (polynomial : Nat) : List String :=
  KEY_SIZES.map (fun size => "k_" ++ toString size ++ " = 0x" ++ toHexStr (generate_key size polynomial))
    ++ ["mu = 0x" ++ toHexStr (generate_mu polynomial),
        "reciprocal = 0x" ++ toHexStr (generate_reciprocal_polynomial polynomial)]

/-- `main`, as a function from the argument vector (program name first) to
the printed lines; `none` models a panic (the `expect` on a failed parse,
or an out-of-bounds `args[1]`). -/
def run_main (args : List String) : Option (List String) :=
  if args.length = 1 then some ["Usage: " ++ args.headD "" ++ " [POLYNOMIAL_HEX]"]
  else
    match args with
    | _ :: arg :: _ =>
      match parse_polynomial arg.toList with
      | some polynomial => some (outputLines polynomial)
      | none => none
    | _ => none

/-- Encoding of the spec-side division state (Boolean high bit) as the
source's `u64` state. -/
def encodeMu (st : Bool × Nat × Nat) : Nat × Nat × Nat :=
  ((if st.1 then 1 else 0), st.2.1, st.2.2)

/-- Spec-side: a character Rust accepts as a digit at radix 16. -/
def isHexDigit (c : Char) : Bool :=
  decide (('0' ≤ c ∧ c ≤ '9') ∨ ('a' ≤ c ∧ c ≤ 'f') ∨ ('A' ≤ c ∧ c ≤ 'F'))

/-- Accumulating value of a digit string, most significant digit first. -/
def hexFold (acc : Nat) (s : List Char) : Nat :=
  s.foldl (fun a c => a * 16 + (hexDigitVal c).getD 0) acc

/-- Value of a digit string. -/
def hexValOf (s : List Char) : Nat := hexFold 0 s

/-- Spec-side: a nonempty all-hex digit string whose value fits in a `u64`. -/
def goodDigits (s : List Char) : Bool :=
  (!s.isEmpty) && s.all isHexDigit && decide (hexValOf s < 2 ^ 64)

/-- Spec-side acceptance predicate: after stripping every leading lowercase
`0x`, the remainder is an optional `+` followed by good digits. -/
def acceptedArg (arg : List Char) : Bool :=
  match trim_start_matches_0x arg with
  | [] => false
  | c :: rest => if c = '+' then goodDigits rest else goodDigits (c :: rest)

/-- Spec-side value of an accepted argument. -/
def specValue (arg : List Char) : Nat :=
  match trim_start_matches_0x arg with
  | [] => 0
  | c :: rest => if c = '+' then hexValOf rest else hexValOf (c :: rest)

/- ### Bit-reversal theory -/

theorem revLow_lt (k : Nat) : ∀ f, revLow k f < 2 ^ k := by
  induction k with
  | zero => intro f; simp [revLow]
  | succ k ih =>
    intro f
    have h1 : f &&& 1 ≤ 1 := Nat.and_le_right
    have h2 := ih (f >>> 1)
    have h3 : (f &&& 1) * 2 ^ k ≤ 2 ^ k := by
      calc (f &&& 1) * 2 ^ k ≤ 1 * 2 ^ k := Nat.mul_le_mul_right _ h1
        _ = 2 ^ k := Nat.one_mul _
    simp only [revLow]
    have h4 : 2 ^ (k + 1) = 2 ^ k + 2 ^ k := by rw [Nat.pow_succ]; omega
    omega

theorem bitRevAux_eq (k : Nat) : ∀ f r, k ≤ 64 → r < 2 ^ (64 - k) →
    bitRevAux k f r = r * 2 ^ k + revLow k f := by
  induction k with
  | zero => intro f r _ _; simp [bitRevAux, revLow]
  | succ k ih =>
    intro f r hk hr
    have hb : f &&& 1 < 2 := Nat.lt_of_le_of_lt Nat.and_le_right (by omega)
    have hshift : r <<< 1 = 2 * r := by rw [Nat.shiftLeft_eq]; ring
    have hpow : (2 : Nat) ^ (64 - k) = 2 * 2 ^ (64 - (k + 1)) := by
      rw [← Nat.pow_succ']
      congr 1
      omega
    have hr2 : 2 * r + (f &&& 1) < 2 ^ (64 - k) := by omega
    have hmod : (r <<< 1) % 2 ^ 64 = 2 * r := by
      rw [hshift]
      apply Nat.mod_eq_of_lt
      have h64 : (2 : Nat) ^ (64 - k) ≤ 2 ^ 64 := Nat.pow_le_pow_right (by omega) (by omega)
      omega
    have hor : 2 * r ||| (f &&& 1) = 2 * r + (f &&& 1) := by
      have h := Nat.mul_add_lt_is_or (b := f &&& 1) (i := 1) (by simpa using hb) r
      simpa using h.symm
    simp only [bitRevAux, hmod, hor]
    rw [ih (f >>> 1) (2 * r + (f &&& 1)) (by omega) hr2]
    simp only [revLow]
    rw [Nat.pow_succ]
    ring

theorem bit_reverse_eq_revLow (f : Nat) : bit_reverse f = revLow 64 f := by
  have h := bitRevAux_eq 64 f 0 (by omega) (by norm_num)
  simpa [bit_reverse] using h

theorem bit_reverse_lt (x : Nat) : bit_reverse x < 2 ^ 64 := by
  rw [bit_reverse_eq_revLow]
  exact revLow_lt 64 x

theorem testBit_revLow (k : Nat) : ∀ f i, Nat.testBit (revLow k f) i =
    if i < k then Nat.testBit f (k - 1 - i) else false := by
  induction k with
  | zero => intro f i; simp [revLow]
  | succ k ih =>
    intro f i
    have hlt := revLow_lt k (f >>> 1)
    have h := Nat.testBit_mul_pow_two_add (f &&& 1) hlt i
    simp only [revLow]
    rw [Nat.mul_comm (f &&& 1) (2 ^ k), h]
    by_cases hik : i < k
    · rw [if_pos hik, ih (f >>> 1) i, if_pos hik, if_pos (by omega)]
      rw [Nat.testBit_shiftRight]
      congr 1
      omega
    · rw [if_neg hik]
      by_cases hik2 : i = k
      · rw [if_pos (by omega)]
        have hkk : i - k = 0 := by omega
        have hkk2 : k + 1 - 1 - i = 0 := by omega
        rw [hkk, hkk2]
        rcases Nat.mod_two_eq_zero_or_one f with h2 | h2 <;>
          simp [Nat.and_one_is_mod, h2]
      · rw [if_neg (by omega)]
        apply Nat.testBit_lt_two_pow
        calc f &&& 1 < 2 ^ 1 := by
              simpa using Nat.lt_of_le_of_lt Nat.and_le_right Nat.one_lt_two
          _ ≤ 2 ^ (i - k) := Nat.pow_le_pow_right (by omega) (by omega)

/-- C5: for every 64-bit value `x` and every bit position `i < 64`, bit `i`
of `bit_reverse x` equals bit `63 - i` of `x` (totality is immediate from
the function being a plain `Nat` recursion). -/
theorem bit_reverse_bit_spec (x i : Nat) (_hx : x < 2 ^ 64) (hi : i < 64) :
    Nat.testBit (bit_reverse x) i = Nat.testBit x (63 - i) := by
  rw [bit_reverse_eq_revLow, testBit_revLow, if_pos hi]

/-- Witness for C5 at `x = 5`, `i = 3`. -/
theorem bit_reverse_bit_spec_witness :
    (5 : Nat) < 2 ^ 64 ∧ 3 < 64 ∧
      Nat.testBit (bit_reverse 5) 3 = Nat.testBit 5 (63 - 3) :=
  ⟨by decide, by decide, bit_reverse_bit_spec 5 3 (by decide) (by decide)⟩

/-- C6: `bit_reverse` is an involution on 64-bit values. -/
theorem bit_reverse_involutive (x : Nat) (hx : x < 2 ^ 64) :
    bit_reverse (bit_reverse x) = x := by
  apply Nat.eq_of_testBit_eq
  intro i
  by_cases hi : i < 64
  · rw [bit_reverse_bit_spec _ i (bit_reverse_lt x) hi,
        bit_reverse_bit_spec x (63 - i) hx (by omega)]
    congr 1
    omega
  · have h1 : (2 : Nat) ^ 64 ≤ 2 ^ i := Nat.pow_le_pow_right (by omega) (by omega)
    rw [Nat.testBit_lt_two_pow (Nat.lt_of_lt_of_le (bit_reverse_lt _) h1),
        Nat.testBit_lt_two_pow (Nat.lt_of_lt_of_le hx h1)]

/-- Witness for C6 at the CRC-64/NVME polynomial. -/
theorem bit_reverse_involutive_witness :
    (0xAD93D23594C93659 : Nat) < 2 ^ 64 ∧
      bit_reverse (bit_reverse 0xAD93D23594C93659) = 0xAD93D23594C93659 :=
  ⟨by decide, bit_reverse_involutive 0xAD93D23594C93659 (by decide)⟩

/-- C7: for every exponent of at most 64 and every polynomial, the key is 0
(the function returns before any division simulation). -/
theorem generate_key_le_64 (e p : Nat) (h : e ≤ 64) : generate_key e p = 0 := by
  simp [generate_key, h]

/-- Witness for C7 at `e = 64`, the NVME polynomial. -/
theorem generate_key_le_64_witness :
    (64 : Nat) ≤ 64 ∧ generate_key 64 0xAD93D23594C93659 = 0 :=
  ⟨by decide, generate_key_le_64 64 0xAD93D23594C93659 (by decide)⟩

/-- C8: the reciprocal polynomial is `(bit_reverse(p) << 1) | 1` in `u64`
arithmetic, with no iteration and no error conditions. -/
theorem generate_reciprocal_polynomial_spec (p : Nat) :
    generate_reciprocal_polynomial p = ((bit_reverse p <<< 1) % 2 ^ 64) ||| 1 := rfl

/- ### Key generation: wraparound mask vs branch mask -/

theorem shiftRight63_eq (n : Nat) (h : n < 2 ^ 64) :
    n >>> 63 = if Nat.testBit n 63 then 1 else 0 := by
  have hdiv : n >>> 63 = n / 2 ^ 63 := Nat.shiftRight_eq_div_pow n 63
  have hlt : n / 2 ^ 63 < 2 := by
    apply Nat.div_lt_of_lt_mul
    omega
  have htb : Nat.testBit n 63 = decide (n / 2 ^ 63 % 2 = 1) := Nat.testBit_to_div_mod
  have hcases : n / 2 ^ 63 = 0 ∨ n / 2 ^ 63 = 1 := by omega
  rcases hcases with h2 | h2 <;> rw [hdiv, htb, h2] <;> simp

theorem wrap_mask_eq (n : Nat) (hn : n < 2 ^ 64) :
    (2 ^ 64 - (n >>> 63)) % 2 ^ 64 = if Nat.testBit n 63 then 2 ^ 64 - 1 else 0 := by
  rw [shiftRight63_eq n hn]
  by_cases h : Nat.testBit n 63
  · rw [if_pos h, if_pos h]
    exact Nat.mod_eq_of_lt (by omega)
  · rw [if_neg h, if_neg h]
    simp

theorem keyStep_eq_branch (p n : Nat) (hn : n < 2 ^ 64) :
    keyStep p n = keyStepBranch p n := by
  unfold keyStep keyStepBranch
  rw [wrap_mask_eq n hn]

theorem keyStepBranch_lt (p n : Nat) (hp : p < 2 ^ 64) : keyStepBranch p n < 2 ^ 64 := by
  unfold keyStepBranch
  apply Nat.xor_lt_two_pow
  · exact Nat.mod_lt _ (by norm_num)
  · exact Nat.lt_of_le_of_lt Nat.and_le_right hp

theorem keyIterate_eq (p : Nat) (hp : p < 2 ^ 64) (k : Nat) :
    ∀ n, n < 2 ^ 64 →
      Nat.iterate (keyStep p) k n = Nat.iterate (keyStepBranch p) k n := by
  induction k with
  | zero => intro n _; rfl
  | succ k ih =>
    intro n hn
    rw [Function.iterate_succ_apply, Function.iterate_succ_apply,
        keyStep_eq_branch p n hn]
    exact ih (keyStepBranch p n) (keyStepBranch_lt p n hp)

/-- C1: for exponents above 64, `generate_key` is the bit-reversal of
`exponent - 64` iterations of the branch-form step from
`0x8000000000000000`; in particular the wraparound-subtraction mask of the
source coincides with the spec's all-ones / all-zeros branch mask at every
step. -/
theorem generate_key_spec (p e : Nat) (hp : p < 2 ^ 64) (he : 64 < e) :
    generate_key e p =
      bit_reverse (Nat.iterate (keyStepBranch p) (e - 64) 0x8000000000000000) := by
  unfold generate_key
  rw [if_neg (by omega)]
  congr 1
  exact keyIterate_eq p hp (e - 64) 0x8000000000000000 (by norm_num)

/-- Witness for C1 at the NVME polynomial, exponent 128. -/
theorem generate_key_spec_witness :
    (0xAD93D23594C93659 : Nat) < 2 ^ 64 ∧ 64 < 128 ∧
      generate_key 128 0xAD93D23594C93659 =
        bit_reverse
          (Nat.iterate (keyStepBranch 0xAD93D23594C93659) (128 - 64) 0x8000000000000000) :=
  ⟨by decide, by decide, generate_key_spec 0xAD93D23594C93659 128 (by decide) (by decide)⟩

/- ### The mu derivation: u64 numerator high part vs single bit -/

theorem muStep_eq_spec (p : Nat) (hp : p < 2 ^ 64) :
    ∀ b l q, l < 2 ^ 64 →
      muStep p (encodeMu (b, l, q)) = encodeMu (muStepSpec p (b, l, q)) := by
  intro b l q hl
  cases b
  · simp [muStep, muStepSpec, encodeMu, shiftRight63_eq l hl]
  · simp [muStep, muStepSpec, encodeMu,
      shiftRight63_eq (l ^^^ p) (Nat.xor_lt_two_pow hl hp)]

theorem muIterate_eq (p : Nat) (hp : p < 2 ^ 64) (k : Nat) :
    ∀ b l q, l < 2 ^ 64 →
      Nat.iterate (muStep p) k (encodeMu (b, l, q)) =
        encodeMu (Nat.iterate (muStepSpec p) k (b, l, q)) := by
  induction k with
  | zero => intro b l q _; rfl
  | succ k ih =>
    intro b l q hl
    rw [Function.iterate_succ_apply, Function.iterate_succ_apply,
        muStep_eq_spec p hp b l q hl]
    rcases hs : muStepSpec p (b, l, q) with ⟨b2, l2, q2⟩
    have hl2 : l2 < 2 ^ 64 := by
      have hgen : (muStepSpec p (b, l, q)).2.1 < 2 ^ 64 := by
        simp only [muStepSpec]
        exact Nat.mod_lt _ (by norm_num)
      rw [hs] at hgen
      exact hgen
    exact ih b2 l2 q2 hl2

/-- C2: `generate_mu` is the bit-reversal of the quotient produced by
exactly 64 iterations of the spec's simulated division, with the numerator
high part a single bit initialized to 1 and the low part and quotient
initialized to 0. -/
theorem generate_mu_spec (p : Nat) (hp : p < 2 ^ 64) :
    generate_mu p = bit_reverse (muSpecQuotient p) := by
  unfold generate_mu muSpecQuotient
  congr 1
  have h := muIterate_eq p hp 64 true 0 0 (by norm_num)
  have henc : encodeMu (true, 0, 0) = ((1 : Nat), (0 : Nat), (0 : Nat)) := rfl
  rw [henc] at h
  rw [h]
  rfl

/-- Witness for C2 at the NVME polynomial. -/
theorem generate_mu_spec_witness :
    (0xAD93D23594C93659 : Nat) < 2 ^ 64 ∧
      generate_mu 0xAD93D23594C93659 = bit_reverse (muSpecQuotient 0xAD93D23594C93659) :=
  ⟨by decide, generate_mu_spec 0xAD93D23594C93659 (by decide)⟩

/- ### Parser characterization -/

theorem isHexDigit_eq_isSome (c : Char) : isHexDigit c = (hexDigitVal c).isSome := by
  unfold isHexDigit hexDigitVal
  by_cases h1 : '0' ≤ c ∧ c ≤ '9'
  · simp [h1]
  · by_cases h2 : 'a' ≤ c ∧ c ≤ 'f'
    · simp [h1, h2]
    · by_cases h3 : 'A' ≤ c ∧ c ≤ 'F'
      · simp [h1, h2, h3]
      · simp [h1, h2, h3]

theorem hexFold_cons (acc : Nat) (c : Char) (cs : List Char) :
    hexFold acc (c :: cs) = hexFold (acc * 16 + (hexDigitVal c).getD 0) cs := rfl

theorem le_hexFold (s : List Char) : ∀ acc, acc ≤ hexFold acc s := by
  induction s with
  | nil => intro acc; simp [hexFold]
  | cons c cs ih =>
    intro acc
    rw [hexFold_cons]
    calc acc ≤ acc * 16 + (hexDigitVal c).getD 0 := by omega
      _ ≤ hexFold (acc * 16 + (hexDigitVal c).getD 0) cs := ih _

theorem parseHexDigits_sound (s : List Char) : ∀ acc, acc < 2 ^ 64 →
    parseHexDigits s acc =
      if s.all isHexDigit && decide (hexFold acc s < 2 ^ 64)
      then some (hexFold acc s) else none := by
  induction s with
  | nil =>
    intro acc h
    simp [parseHexDigits, hexFold]
    omega
  | cons c cs ih =>
    intro acc h
    cases hv : hexDigitVal c with
    | none =>
      have hhex : isHexDigit c = false := by
        rw [isHexDigit_eq_isSome, hv]
        rfl
      simp [parseHexDigits, hv, hhex]
    | some v =>
      have hhex : isHexDigit c = true := by
        rw [isHexDigit_eq_isSome, hv]
        rfl
      have hfold : hexFold acc (c :: cs) = hexFold (acc * 16 + v) cs := by
        rw [hexFold_cons, hv]
        rfl
      simp only [parseHexDigits, hv, hfold, List.all_cons, hhex, Bool.true_and]
      by_cases hov : acc * 16 + v < 2 ^ 64
      · rw [if_pos hov, ih _ hov]
      · rw [if_neg hov]
        have hge := le_hexFold cs (acc * 16 + v)
        have hnot : ¬ (hexFold (acc * 16 + v) cs < 2 ^ 64) := by omega
        rw [decide_eq_false hnot, Bool.and_false]
        simp

theorem parse_polynomial_eq (arg : List Char) :
    parse_polynomial arg = if acceptedArg arg then some (specValue arg) else none := by
  unfold parse_polynomial acceptedArg specValue
  cases htrim : trim_start_matches_0x arg with
  | nil => simp [from_str_radix16]
  | cons c rest =>
    simp only [from_str_radix16]
    by_cases hplus : c = '+'
    · rw [if_pos hplus, if_pos hplus, if_pos hplus]
      cases rest with
      | nil => simp [goodDigits]
      | cons d ds =>
        rw [parseHexDigits_sound _ 0 (by norm_num)]
        simp only [goodDigits, List.isEmpty_cons, Bool.not_false, Bool.true_and, hexValOf]
        simp
    · rw [if_neg hplus, if_neg hplus, if_neg hplus]
      by_cases hminus : c = '-'
      · rw [if_pos hminus]
        have hdash : isHexDigit '-' = false := by decide
        subst hminus
        simp [goodDigits, List.all_cons, hdash]
      · rw [if_neg hminus]
        rw [parseHexDigits_sound _ 0 (by norm_num)]
        simp only [goodDigits, List.isEmpty_cons, Bool.not_false, Bool.true_and, hexValOf]

/-- C3 counterexample: `0X1` is the hexadecimal representation of 1 with an
uppercase `0X` prefix, yet the program's parse fails (the `expect` panics,
modelled as `none`: fatal failure, no constant output). -/
theorem uppercase_prefix_rejected :
    run_main ["calculate_pclmulqdq_artifacts", "0X1"] = none := by decide

/-- C3 (amended): the program parses and prints exactly for arguments that,
after stripping every leading lowercase `0x`, are an optional `+` followed
by nonempty hex digits whose value fits in a `u64`; every other argument is
a fatal parse failure with no constant output. -/
theorem run_main_parse_characterization (name arg : String) :
    run_main [name, arg] =
      if acceptedArg arg.toList then some (outputLines (specValue arg.toList)) else none := by
  have hmain : run_main [name, arg] =
      match parse_polynomial arg.toList with
      | some polynomial => some (outputLines polynomial)
      | none => none := rfl
  rw [hmain, parse_polynomial_eq]
  by_cases h : acceptedArg arg.toList = true
  · rw [if_pos h, if_pos h]
  · rw [if_neg h, if_neg h]

/- ### Repeated lowercase prefix stripping -/

theorem trim_of_all_hex (s : List Char) (h : s.all isHexDigit = true) :
    trim_start_matches_0x s = s := by
  cases s with
  | nil => rfl
  | cons c1 t =>
    cases t with
    | nil => rfl
    | cons c2 rest =>
      have h2 : isHexDigit c2 = true := by
        simp [List.all_cons] at h
        exact h.2.1
      have hx : ¬ (c1 = '0' ∧ c2 = 'x') := by
        rintro ⟨h0, hxx⟩
        subst hxx
        exact absurd h2 (by decide)
      simp [trim_start_matches_0x, hx]

theorem trim_append_replicate (n : Nat) (s : List Char)
    (hs : trim_start_matches_0x s = s) :
    trim_start_matches_0x ((List.replicate n ['0', 'x']).flatten ++ s) = s := by
  induction n with
  | zero => simpa using hs
  | succ n ih =>
    have hshape : (List.replicate (n + 1) ['0', 'x']).flatten ++ s =
        '0' :: 'x' :: ((List.replicate n ['0', 'x']).flatten ++ s) := by
      simp [List.replicate_succ]
    rw [hshape]
    simpa [trim_start_matches_0x] using ih

/-- C9: prefixing a pure-hex argument with any number of lowercase `0x`
copies leaves the parse result unchanged, and both parses succeed with the
digit string's value. -/
theorem repeated_0x_prefix (n : Nat) (s : List Char) (h1 : s ≠ [])
    (h2 : s.all isHexDigit = true) (h3 : hexValOf s < 2 ^ 64) :
    parse_polynomial ((List.replicate n ['0', 'x']).flatten ++ s) = parse_polynomial s ∧
      parse_polynomial s = some (hexValOf s) := by
  have htrim := trim_of_all_hex s h2
  have happ := trim_append_replicate n s htrim
  refine ⟨by unfold parse_polynomial; rw [happ, htrim], ?_⟩
  unfold parse_polynomial
  rw [htrim]
  cases s with
  | nil => exact absurd rfl h1
  | cons c cs =>
    have hc : isHexDigit c = true := by
      simp [List.all_cons] at h2
      exact h2.1
    have hplus : ¬ c = '+' := by
      rintro rfl
      exact absurd hc (by decide)
    have hminus : ¬ c = '-' := by
      rintro rfl
      exact absurd hc (by decide)
    simp only [from_str_radix16, if_neg hplus, if_neg hminus]
    rw [parseHexDigits_sound _ 0 (by norm_num)]
    rw [if_pos]
    · rfl
    · rw [h2]
      have h3f : hexFold 0 (c :: cs) < 2 ^ 64 := h3
      rw [decide_eq_true h3f]
      rfl

/-- Witness for C9 at `n = 2`, `s = "1234"`: `0x0x1234` parses as `0x1234`. -/
theorem repeated_0x_prefix_witness :
    (['1', '2', '3', '4'] : List Char) ≠ [] ∧
      (['1', '2', '3', '4'] : List Char).all isHexDigit = true ∧
      hexValOf ['1', '2', '3', '4'] < 2 ^ 64 ∧
      (parse_polynomial ((List.replicate 2 ['0', 'x']).flatten ++ ['1', '2', '3', '4']) =
          parse_polynomial ['1', '2', '3', '4'] ∧
        parse_polynomial ['1', '2', '3', '4'] = some (hexValOf ['1', '2', '3', '4'])) :=
  ⟨by decide, by decide, by decide,
    repeated_0x_prefix 2 ['1', '2', '3', '4'] (by decide) (by decide) (by decide)⟩

/-- C4: invoking the tool with `0xAD93D23594C93659` prints exactly these 18
lines: the 16 keys `k_128` … `k_1088` in ascending exponent order in
unpadded lowercase hex, then `mu`, then `reciprocal`. -/
theorem end_to_end_nvme :
    run_main ["calculate_pclmulqdq_artifacts", "0xAD93D23594C93659"] =
      some ["k_128 = 0x21e9761e252621ac",
            "k_192 = 0xeadc41fd2ba3d420",
            "k_256 = 0xe1e0bb9d45d7a44c",
            "k_320 = 0xb0bc2e589204f500",
            "k_384 = 0xa3ffdc1fe8e82a8b",
            "k_448 = 0xbdd7ac0ee1a4a0f0",
            "k_512 = 0x62242240ace5045a",
            "k_576 = 0xc32cdb31e18a84a",
            "k_640 = 0x3363823e6e791e5",
            "k_704 = 0x7b0ab10dd0f809fe",
            "k_768 = 0x34f5a24e22d66e90",
            "k_832 = 0x3c255f5ebc414423",
            "k_896 = 0x946588403d4adcbc",
            "k_960 = 0xd083dd594d96319d",
            "k_1024 = 0x5f852fb61e8d92dc",
            "k_1088 = 0xa1ca681e733f9c40",
            "mu = 0x27ecfa329aef9f77",
            "reciprocal = 0x34d926535897936b"] := by decide

/-- C10: the printed output depends only on the second element of the
argument vector (the first command-line argument); any further arguments
are ignored and never cause an error. -/
theorem output_ignores_extra_args (name a : String) (rest rest2 : List String) :
    run_main (name :: a :: rest) = run_main (name :: a :: rest2) := by
  have h1 : (name :: a :: rest).length ≠ 1 := by simp
  have h2 : (name :: a :: rest2).length ≠ 1 := by simp
  simp only [run_main, if_neg h1, if_neg h2]
